import Mathlib

/-!
Shallow embedding of the playlist / playback-state component of the
`MusicPlayer` application (`src/hello.py`), together with proofs of the
behavioural properties stated in its specification.

The embedding models:
  * the metadata service `get_track_info` (hello.py lines 84-120), with the
    external `mutagen` library abstracted as an oracle that may fail;
  * the playlist store: `scan_directory` (510-535), `sort_playlist`
    (537-566), `clear_playlist` (583-590);
  * playback control: `play_music` (594-631), `pause_music` (633-637),
    `stop_music` (639-643), `toggle_shuffle` (645-653), `next_track`
    (657-672), `previous_track` (674-682), `play_selected_track` (684-690),
    `start_seek` / `end_seek` (699-727).

Widget construction, album art, the visualizer and the timer poll loop are
UI glue and are not part of the modelled state, except for the fields they
read or write on the player object (`is_paused`, `seek_offset`,
`is_seeking`, the pygame mixer channel, and the sort dropdown value).

Python's stable `list.sort(key=...)` is modelled by `List.insertionSort`:
for a total, transitive comparison the output of a stable sort is uniquely
determined, so any stable sort (Timsort included) computes the same list.
Python integers are `Int` (Python `%` on integers and `Int.emod` agree);
`-1` is the "no track" sentinel as in `_init_variables` (line 49).
-/

namespace MusicPlayer

/-! ### Path helpers (`pathlib.Path.stem` / `.suffix`, `os.path.join`) -/

/-- The final path component: characters after the last `'/'`
(models `PurePath.name` for POSIX paths). -/
def lastComponent (cs : List Char) : List Char :=
  (cs.reverse.takeWhile (fun c => c ≠ '/')).reverse

/-- Index of the last `'.'` in a component (Python `str.rfind('.')`),
or `none` when there is no dot. -/
def rfindDot (cs : List Char) : Option Nat :=
  match cs.reverse.findIdx? (fun c => c == '.') with
  | some j => some (cs.length - 1 - j)
  | none => none

/-- `PurePath.suffix` on a path component: the part from the last dot on,
provided the dot is neither the first nor the last character, else empty
(this is exactly the guard `0 < i < len(name) - 1` used by `pathlib`). -/
def pySuffix (name : List Char) : List Char :=
  match rfindDot name with
  | some i => if 0 < i ∧ i < name.length - 1 then name.drop i else []
  | none => []

/-- `PurePath.stem` on a path component: the component without its suffix. -/
def pyStemName (name : List Char) : List Char :=
  match rfindDot name with
  | some i => if 0 < i ∧ i < name.length - 1 then name.take i else name
  | none => name

/-- `Path(file_path).stem` as used in `get_track_info` (hello.py 91, 118). -/
def pyStem (path : String) : String :=
  ⟨pyStemName (lastComponent path.data)⟩

/-- ASCII lowercasing of one character (models `str.lower()` per char). -/
def lowerChar (c : Char) : Char :=
  if 65 ≤ c.toNat ∧ c.toNat ≤ 90 then Char.ofNat (c.toNat + 32) else c

/-- `os.path.join(root, file)` for a relative `file`. -/
def joinPath (root file : String) : String := root ++ "/" ++ file

/-- The fixed extension set of `scan_directory` (hello.py 519). -/
def audio_extensions : List String :=
  [".mp3", ".wav", ".ogg", ".flac", ".m4a", ".aac", ".wma"]

/-- `Path(file).suffix.lower() in audio_extensions` (hello.py 525). -/
def isAudioFile (file : String) : Bool :=
  audio_extensions.contains ⟨(pySuffix (lastComponent file.data)).map lowerChar⟩

/-! ### Metadata service: `get_track_info` (hello.py 84-120)

The external `mutagen` library is an oracle mapping a path to
either an exception (`.error`), no usable tags (`.ok none`, covering
`audio is None`, a missing `tags` attribute and falsy `tags`), or a tag
table (`.ok (some tags)`).  Each tag table entry models one of the six
lookups in the source: `none` means the key is absent, and for the
list-valued keys (`'title'`, `'artist'`, `'album'`, read as `tags[k][0]`)
`some none` means the key is present but indexing raises. -/

/-- The `{title, artist, album}` dictionaries cached in `track_metadata`. -/
structure TrackInfo where
  title : String
  artist : String
  album : String
deriving DecidableEq

/-- One tag table, as observed by the six lookups in `get_track_info`. -/
structure Tags where
  tit2 : Option String
  titleAlt : Option (Option String)
  tpe1 : Option String
  artistAlt : Option (Option String)
  talb : Option String
  albumAlt : Option (Option String)
deriving DecidableEq

/-- External collaborator: the outcome of `MutagenFile(path)` plus the
`tags` attribute checks, per path. -/
abbrev Mutagen := String → Except Unit (Option Tags)

/-- The `track_metadata` cache: a dict keyed by path (hello.py 51). -/
abbrev Cache := List (String × TrackInfo)

/-- Dictionary lookup `cache[path]` / `path in cache`. -/
def lookupCache : Cache → String → Option TrackInfo
  | [], _ => none
  | (q, i) :: rest, p => if p = q then some i else lookupCache rest p

/-- One `if key in tags: ... elif alt in tags: str(tags[alt][0]) ...` block
of `get_track_info`; `.error` propagates an `IndexError` from `[0]`. -/
def tagField (primary : Option String) (alt : Option (Option String))
    (dflt : String) : Except Unit String :=
  match primary with
  | some v => .ok v
  | none =>
    match alt with
    | some (some v) => .ok v
    | some none => .error ()
    | none => .ok dflt

/-- The value produced by the `except:` branch of `get_track_info`
(hello.py 118): filename stem plus the two "Unknown" defaults. -/
def fallbackInfo (path : String) : TrackInfo :=
  { title := pyStem path, artist := "Unknown Artist", album := "Unknown Album" }

/-- The `try:` body of `get_track_info` (hello.py 89-116): open the file,
and read title / artist / album with their defaults. -/
def extractInfo (m : Mutagen) (path : String) : Except Unit TrackInfo := do
  let audio ← m path
  match audio with
  | none => pure (fallbackInfo path)
  | some tags => do
    let t ← tagField tags.tit2 tags.titleAlt (pyStem path)
    let a ← tagField tags.tpe1 tags.artistAlt "Unknown Artist"
    let al ← tagField tags.talb tags.albumAlt "Unknown Album"
    pure { title := t, artist := a, album := al }

/-- `get_track_info` (hello.py 84-120): consult the cache; on a miss run
the `try:` body, falling back on any exception, and cache the result. -/
def get_track_info (m : Mutagen) (cache : Cache) (path : String) :
    TrackInfo × Cache :=
  match lookupCache cache path with
  | some info => (info, cache)
  | none =>
    match extractInfo m path with
    | .ok info => (info, cache ++ [(path, info)])
    | .error _ => (fallbackInfo path, cache ++ [(path, fallbackInfo path)])

/-- The metadata a lookup of `path` yields from cache state `cache`
(first projection of `get_track_info`). -/
def resolve (m : Mutagen) (cache : Cache) (path : String) : TrackInfo :=
  (get_track_info m cache path).1

/-! ### Sort keys (`sort_playlist`, hello.py 551-556) -/

/-- The three values of the sort dropdown (hello.py 436). -/
inductive SortKey
  | name
  | artist
  | album
deriving DecidableEq

/-- Case-insensitive rendering of a string as a list of code points
(`x.lower()` applied before comparison). -/
def lowerKey (s : String) : List Nat :=
  s.data.map (fun c => (lowerChar c).toNat)

/-- A Python sort key: either a single lowercased string (Name) or a pair
(Artist, Album).  The single-string case is encoded with an empty second
component, which compares equal to itself, so pair comparison coincides
with plain string comparison there. -/
abbrev Key := List Nat × List Nat

/-- The `key=lambda x: ...` of each dropdown choice (hello.py 552, 554, 556). -/
def keyFor : SortKey → TrackInfo → Key
  | .name, i => (lowerKey i.title, [])
  | .artist, i => (lowerKey i.artist, lowerKey i.title)
  | .album, i => (lowerKey i.album, lowerKey i.title)

/-- Lexicographic `≤` on code-point lists: Python string comparison. -/
def natListLe : List Nat → List Nat → Bool
  | [], _ => true
  | _ :: _, [] => false
  | a :: as, b :: bs =>
    if a < b then true else if b < a then false else natListLe as bs

/-- Lexicographic `≤` on keys: Python tuple comparison of the pairs used
as sort keys (and plain string comparison for the Name key). -/
def keyLe (a b : Key) : Bool :=
  if a.1 = b.1 then natListLe a.2 b.2 else natListLe a.1 b.1

/-- The sort relation on decorated list entries `(path, key)`:
compare by key only, which is what `list.sort(key=...)` does. -/
def pairLe (x y : String × Key) : Prop := keyLe x.2 y.2 = true

instance : DecidableRel pairLe := fun x y =>
  inferInstanceAs (Decidable (keyLe x.2 y.2 = true))

/-! ### Player state -/

/-- The pygame mixer music channel, as far as the source observes it:
the loaded stream, whether `play` has been issued, whether the channel is
paused, and the `start=` offset passed to `play` (hello.py 609-610, 721). -/
structure EngineState where
  loaded : Option String
  playing : Bool
  paused : Bool
  startPos : Nat
deriving DecidableEq

/-- `pygame.mixer.music.stop()`. -/
def engineStop (e : EngineState) : EngineState :=
  { e with playing := false, paused := false }

/-- `pygame.mixer.music.load(track)`. -/
def engineLoad (e : EngineState) (track : String) : EngineState :=
  { e with loaded := some track, playing := false, paused := false }

/-- `pygame.mixer.music.play(start=pos)` (with `pos = 0` for plain `play()`). -/
def enginePlay (e : EngineState) (pos : Nat) : EngineState :=
  { e with playing := true, paused := false, startPos := pos }

/-- `pygame.mixer.music.pause()`. -/
def enginePause (e : EngineState) : EngineState :=
  { e with paused := true }

/-- `pygame.mixer.music.unpause()`. -/
def engineUnpause (e : EngineState) : EngineState :=
  { e with paused := false }

/-- `pygame.mixer.music.get_busy()`: actively playing and not paused. -/
def engineBusy (e : EngineState) : Bool := e.playing && !e.paused

/-- The mutable state of the player object relevant to playlist and
playback behaviour (`_init_variables`, hello.py 45-69, plus the sort
dropdown value read by `sort_playlist`). -/
structure State where
  playlist : List String
  current_track_index : Int
  sort_by : SortKey
  track_metadata : Cache
  is_paused : Bool
  shuffle_mode : Bool
  is_seeking : Bool
  seek_offset : Nat
  engine : EngineState
deriving DecidableEq

/-- The state right after `_init_variables` (hello.py 45-69). -/
def initState : State :=
  { playlist := []
    current_track_index := -1
    sort_by := .name
    track_metadata := []
    is_paused := false
    shuffle_mode := false
    is_seeking := false
    seek_offset := 0
    engine := { loaded := none, playing := false, paused := false, startPos := 0 } }

/-- Python list indexing `l[i]` at a (reachable-state) in-range index.
Out-of-range access raises in Python; the model returns `""` there. -/
def listGetI (l : List String) (i : Int) : String := l.getD i.toNat ""

/-! ### Playback control methods -/

/-- `stop_music` (hello.py 639-643); the visualizer reset is UI-only. -/
def stop_music (s : State) : State :=
  { s with engine := engineStop s.engine, is_paused := false }

/-- `play_music` (hello.py 594-631): no-op when the playlist is empty;
unpause when paused; otherwise select index 0 if no track is current, then
load and play the current track from offset 0 and reset `seek_offset`. -/
def play_music (s : State) : State :=
  if s.playlist = [] then s
  else if s.is_paused then
    { s with engine := engineUnpause s.engine, is_paused := false }
  else
    let idx : Int := if s.current_track_index = -1 then 0 else s.current_track_index
    let track := listGetI s.playlist idx
    { s with
      current_track_index := idx
      engine := enginePlay (engineLoad s.engine track) 0
      seek_offset := 0 }

/-- `pause_music` (hello.py 633-637): pause only when the engine is busy. -/
def pause_music (s : State) : State :=
  if engineBusy s.engine then
    { s with engine := enginePause s.engine, is_paused := true }
  else s

/-- `toggle_shuffle` (hello.py 645-653). -/
def toggle_shuffle (s : State) : State :=
  { s with shuffle_mode := !s.shuffle_mode }

/-- `clear_playlist` (hello.py 583-590): stop, empty the list and the
metadata cache, reset the current index to the sentinel. -/
def clear_playlist (s : State) : State :=
  let s1 := stop_music s
  { s1 with playlist := [], track_metadata := [], current_track_index := -1 }

/-- `next_track` (hello.py 657-672).  `r` is the oracle for
`random.randint(0, len(playlist) - 1)`: any natural number, reduced into
range; it is unused when shuffle is off. -/
def next_track (r : Nat) (s : State) : State :=
  if s.playlist = [] then s
  else
    let idx : Int :=
      if s.shuffle_mode then ((r % s.playlist.length : Nat) : Int)
      else (s.current_track_index + 1) % (s.playlist.length : Int)
    play_music (stop_music { s with current_track_index := idx })

/-- `previous_track` (hello.py 674-682). -/
def previous_track (s : State) : State :=
  if s.playlist = [] then s
  else
    play_music (stop_music
      { s with current_track_index :=
          (s.current_track_index - 1) % (s.playlist.length : Int) })

/-- `play_selected_track` (hello.py 684-690) for a non-empty listbox
selection `i`; the listbox rows are exactly the playlist entries. -/
def play_selected_track (i : Nat) (s : State) : State :=
  play_music (stop_music { s with current_track_index := (i : Int) })

/-- `start_seek` (hello.py 699-702). -/
def start_seek (s : State) : State :=
  { s with is_seeking := true }

/-- `end_seek` (hello.py 704-727): guard on an empty playlist or sentinel
index; otherwise set `seek_offset`, stop, reload the current track, play
from the scrubber position, and re-pause when the session was paused. -/
def end_seek (pos : Nat) (s : State) : State :=
  if s.playlist = [] ∨ s.current_track_index = -1 then
    { s with is_seeking := false }
  else
    let track := listGetI s.playlist s.current_track_index
    let e1 := enginePlay (engineLoad (engineStop s.engine) track) pos
    let e2 := if s.is_paused then enginePause e1 else e1
    { s with seek_offset := pos, engine := e2, is_seeking := false }

/-! ### Playlist management methods -/

/-- The decorate step of `list.sort(key=...)`: compute the key of every
element in list order, threading the metadata cache through
`get_track_info` exactly as the key lambdas do (hello.py 552-556). -/
def computeKeys (m : Mutagen) (k : SortKey) :
    Cache → List String → List (String × Key) × Cache
  | c, [] => ([], c)
  | c, p :: rest =>
    let r1 := get_track_info m c p
    let r2 := computeKeys m k r1.2 rest
    ((p, keyFor k r1.1) :: r2.1, r2.2)

/-- The decorated playlist a sort of state `s` works on. -/
def decorated (m : Mutagen) (s : State) : List (String × Key) :=
  (computeKeys m s.sort_by s.track_metadata s.playlist).1

/-- The playlist order `sort_playlist` produces on a non-empty playlist. -/
def sortedPlaylist (m : Mutagen) (s : State) : List String :=
  (List.insertionSort pairLe (decorated m s)).map (fun x => x.1)

/-- The current-index update of `sort_playlist` (hello.py 545-563): read
the current track when the index is in range (`current_track` stays `None`
otherwise), and after sorting re-locate it with `list.index` — the
`if current_track:` test is Python truthiness, so the remap is skipped not
only for `None` but also for an empty-string path, and the
`except ValueError` branch resets the index to the sentinel. -/
def remapIndex (oldIdx : Int) (oldList newList : List String) : Int :=
  let current : Option String :=
    if 0 ≤ oldIdx ∧ oldIdx < oldList.length then
      some (listGetI oldList oldIdx)
    else none
  match current with
  | some p =>
    if p ≠ "" then
      if p ∈ newList then ((List.indexOf p newList : Nat) : Int) else -1
    else oldIdx
  | none => oldIdx

/-- `sort_playlist` (hello.py 537-566): no-op on an empty playlist;
otherwise stable-sort the sequence by the dropdown key (threading the
metadata cache through the key lambdas) and remap the current index. -/
def sort_playlist (m : Mutagen) (s : State) : State :=
  if s.playlist = [] then s
  else
    let newList := sortedPlaylist m s
    { s with playlist := newList
             track_metadata := (computeKeys m s.sort_by s.track_metadata s.playlist).2
             current_track_index := remapIndex s.current_track_index s.playlist newList }

/-- The `os.walk` loop body of `scan_directory` (hello.py 523-529):
for each `(root, file)` yielded by the walk, append `os.path.join(root,
file)` when the suffix matches and the path is not already present,
counting the additions. -/
def scanLoop (s : State) (n : Nat) : List (String × String) → State × Nat
  | [] => (s, n)
  | rf :: rest =>
    if isAudioFile rf.2 then
      if joinPath rf.1 rf.2 ∈ s.playlist then scanLoop s n rest
      else scanLoop { s with playlist := s.playlist ++ [joinPath rf.1 rf.2] }
        (n + 1) rest
    else scanLoop s n rest

/-- `scan_directory` (hello.py 510-535) for a chosen directory whose walk
yields `found` (as `(root, file)` pairs, in walk order): run the loop,
then re-sort when the playlist is non-empty.  The returned count is the
local `files_found`. -/
def scan_directory (m : Mutagen) (found : List (String × String)) (s : State) :
    State × Nat :=
  if (scanLoop s 0 found).1.playlist = [] then scanLoop s 0 found
  else (sort_playlist m (scanLoop s 0 found).1, (scanLoop s 0 found).2)

/-- The joined paths a walk contributes, in order (suffix filter applied). -/
def audioPaths (found : List (String × String)) : List String :=
  (found.filter (fun rf => isAudioFile rf.2)).map (fun rf => joinPath rf.1 rf.2)

/-! ### The operation machine -/

/-- States reachable from `initState` by the UI-triggered operations,
with the external collaborators fixed: `m` is the mutagen oracle, each
`next` carries the random oracle draw, each `scan` the directory walk
result, each `sort` the dropdown choice that fired the event, and a
`select` carries a listbox selection, which is always a row of the
displayed playlist. -/
inductive Reachable (m : Mutagen) : State → Prop
  | init : Reachable m initState
  | scan (found : List (String × String)) {s : State} :
      Reachable m s → Reachable m (scan_directory m found s).1
  | sort (k : SortKey) {s : State} :
      Reachable m s → Reachable m (sort_playlist m { s with sort_by := k })
  | clear {s : State} : Reachable m s → Reachable m (clear_playlist s)
  | next (r : Nat) {s : State} : Reachable m s → Reachable m (next_track r s)
  | prev {s : State} : Reachable m s → Reachable m (previous_track s)
  | play {s : State} : Reachable m s → Reachable m (play_music s)
  | pause {s : State} : Reachable m s → Reachable m (pause_music s)
  | stop {s : State} : Reachable m s → Reachable m (stop_music s)
  | shuffle {s : State} : Reachable m s → Reachable m (toggle_shuffle s)
  | select (i : Nat) {s : State} (h : i < s.playlist.length) :
      Reachable m s → Reachable m (play_selected_track i s)
  | seekStart {s : State} : Reachable m s → Reachable m (start_seek s)
  | seekEnd (pos : Nat) {s : State} : Reachable m s → Reachable m (end_seek pos s)

/-- The current-index invariant of the Playlist data model: the index is
the sentinel `-1` or a valid position into the sequence. -/
def IndexInv (s : State) : Prop :=
  s.current_track_index = -1 ∨
    (0 ≤ s.current_track_index ∧ s.current_track_index < s.playlist.length)

/-- The key a path sorts under in state `s` (its cached metadata, or what
one extraction would yield), lowercased per the dropdown choice. -/
def sortKeyOf (m : Mutagen) (s : State) (p : String) : Key :=
  keyFor s.sort_by (resolve m s.track_metadata p)

/-- A mutagen oracle for which every file is unreadable
(`MutagenFile` raises); used for concrete evaluations. -/
def mutagenFails : Mutagen := fun _ => .error ()

/-! ### Concrete data used to instantiate the theorems -/

/-- A directory walk yielding two audio files and one other file. -/
def walkD : List (String × String) :=
  [("d", "b.mp3"), ("d", "a.mp3"), ("d", "notes.txt")]

/-- A three-track state with the first track current. -/
def st3 : State :=
  { initState with
    playlist := ["d/a.mp3", "d/b.mp3", "d/c.mp3"]
    current_track_index := 0 }

/-- A three-track state with no track selected. -/
def st3none : State :=
  { initState with
    playlist := ["d/a.mp3", "d/b.mp3", "d/c.mp3"]
    current_track_index := -1 }

/-- A paused single-track state with a loaded stream. -/
def stPaused : State :=
  { initState with
    playlist := ["d/a.mp3"]
    current_track_index := 0
    is_paused := true
    engine := { loaded := some "d/a.mp3", playing := true, paused := true, startPos := 0 } }

/-- A state whose current track is the empty-string path and whose cached
titles would move it when sorting by Name. -/
def stEmptyPath : State :=
  { initState with
    playlist := ["", "d/b.mp3"]
    current_track_index := 0
    track_metadata :=
      [("", { title := "zebra", artist := "x", album := "x" }),
       ("d/b.mp3", { title := "apple", artist := "x", album := "x" })] }

/-- A two-track state whose current track moves under a Name sort. -/
def stZebra : State :=
  { initState with
    playlist := ["d/z.mp3", "d/a.mp3"]
    current_track_index := 0
    track_metadata :=
      [("d/z.mp3", { title := "Zebra", artist := "x", album := "x" }),
       ("d/a.mp3", { title := "Apple", artist := "x", album := "x" })] }

/-! ## Properties of the comparison functions -/

theorem natListLe_refl : ∀ a : List Nat, natListLe a a = true
  | [] => rfl
  | x :: xs => by simp [natListLe, natListLe_refl xs]

theorem natListLe_total : ∀ a b : List Nat, natListLe a b = true ∨ natListLe b a = true
  | [], _ => Or.inl rfl
  | _ :: _, [] => Or.inr rfl
  | a :: as, b :: bs => by
    by_cases hab : a < b
    · exact Or.inl (by simp [natListLe, hab])
    · by_cases hba : b < a
      · exact Or.inr (by simp [natListLe, hba])
      · have hmain := natListLe_total as bs
        rcases hmain with h | h
        · exact Or.inl (by simp [natListLe, hab, hba, h])
        · exact Or.inr (by simp [natListLe, hab, hba, h])

theorem natListLe_antisymm :
    ∀ {a b : List Nat}, natListLe a b = true → natListLe b a = true → a = b
  | [], [], _, _ => rfl
  | [], _ :: _, _, h => by simp [natListLe] at h
  | _ :: _, [], h, _ => by simp [natListLe] at h
  | a :: as, b :: bs, h1, h2 => by
    by_cases hab : a < b
    · simp [natListLe, hab, Nat.lt_asymm hab, Nat.ne_of_lt hab] at h2
    · by_cases hba : b < a
      · simp [natListLe, hba, hab] at h1
      · have hco : a = b := by omega
        subst hco
        simp only [natListLe, if_neg hab, if_neg hba] at h1 h2
        simp [natListLe_antisymm h1 h2]

theorem natListLe_trans :
    ∀ {a b c : List Nat},
      natListLe a b = true → natListLe b c = true → natListLe a c = true
  | [], _, _, _, _ => rfl
  | _ :: _, [], _, h, _ => by simp [natListLe] at h
  | _ :: _, _ :: _, [], _, h => by simp [natListLe] at h
  | a :: as, b :: bs, c :: cs, h1, h2 => by
    by_cases hab : a < b
    · by_cases hbc : b < c
      · have : a < c := Nat.lt_trans hab hbc
        simp [natListLe, this]
      · by_cases hcb : c < b
        · simp [natListLe, hbc, hcb] at h2
        · have : b = c := by omega
          subst this
          simp [natListLe, hab]
    · by_cases hba : b < a
      · simp [natListLe, hab, hba] at h1
      · have hba2 : a = b := by omega
        subst hba2
        by_cases hbc : a < c
        · simp [natListLe, hbc]
        · by_cases hcb : c < a
          · simp [natListLe, hbc, hcb] at h2
          · have : a = c := by omega
            subst this
            simp only [natListLe, if_neg hbc, if_neg hcb] at h1 h2 ⊢
            exact natListLe_trans h1 h2

theorem keyLe_refl (a : Key) : keyLe a a = true := by
  simp [keyLe, natListLe_refl]

theorem keyLe_total (a b : Key) : keyLe a b = true ∨ keyLe b a = true := by
  unfold keyLe
  by_cases h : a.1 = b.1
  · simp [h, natListLe_total a.2 b.2]
  · simp [h, Ne.symm h, natListLe_total a.1 b.1]

theorem keyLe_trans {a b c : Key} (h1 : keyLe a b = true) (h2 : keyLe b c = true) :
    keyLe a c = true := by
  unfold keyLe at h1 h2 ⊢
  by_cases hab : a.1 = b.1
  · by_cases hbc : b.1 = c.1
    · have hac : a.1 = c.1 := hab.trans hbc
      rw [if_pos hab] at h1
      rw [if_pos hbc] at h2
      rw [if_pos hac]
      exact natListLe_trans h1 h2
    · have hac : a.1 ≠ c.1 := hab ▸ hbc
      rw [if_neg hbc] at h2
      rw [if_neg hac, hab]
      exact h2
  · by_cases hbc : b.1 = c.1
    · have hac : a.1 ≠ c.1 := fun h => hab (h.trans hbc.symm)
      rw [if_neg hab] at h1
      rw [if_neg hac, ← hbc]
      exact h1
    · rw [if_neg hab] at h1
      rw [if_neg hbc] at h2
      have h3 := natListLe_trans h1 h2
      by_cases hac : a.1 = c.1
      · exact absurd (natListLe_antisymm h1 (hac ▸ h2)) hab
      · rw [if_neg hac]
        exact h3

instance : IsTotal (String × Key) pairLe :=
  ⟨fun x y => keyLe_total x.2 y.2⟩

instance : IsTrans (String × Key) pairLe :=
  ⟨fun _ _ _ h1 h2 => keyLe_trans h1 h2⟩

/-- Any stable sort leaves a run of mutually `r`-comparable selected
elements in their original relative order: selecting them with `filter`
commutes with `insertionSort`. -/
theorem filter_insertionSort_of_const {α : Type} (r : α → α → Prop)
    [DecidableRel r] (p : α → Bool) (l : List α)
    (h : ∀ a b, p a = true → p b = true → r a b) :
    (List.insertionSort r l).filter p = l.filter p := by
  have pw : (l.filter p).Pairwise r :=
    List.pairwise_of_forall_mem_list (fun a ha b hb =>
      h a b (List.of_mem_filter ha) (List.of_mem_filter hb))
  have sub : List.Sublist (l.filter p) (List.insertionSort r l) :=
    List.sublist_insertionSort pw (List.filter_sublist l)
  have sub2 : List.Sublist (l.filter p) ((List.insertionSort r l).filter p) := by
    have h2 := sub.filter p
    rwa [List.filter_filter, (by simp : (fun a => p a && p a) = p)] at h2
  have len : ((List.insertionSort r l).filter p).length = (l.filter p).length :=
    ((List.perm_insertionSort r l).filter p).length_eq
  exact (sub2.eq_of_length len.symm).symm

/-! ## Properties of the metadata cache -/

theorem lookupCache_append (c : Cache) (p q : String) (v : TrackInfo) :
    lookupCache (c ++ [(q, v)]) p =
      match lookupCache c p with
      | some i => some i
      | none => if p = q then some v else none := by
  induction c with
  | nil => simp [lookupCache]
  | cons hd tl ih =>
    by_cases h : p = hd.1
    · simp [lookupCache, h]
    · simpa [lookupCache, h] using ih

/-- Threading a lookup of `p` through the cache does not change what any
later lookup yields: entries are only added, with the value a fresh
extraction would give. -/
theorem resolve_get_track_info (m : Mutagen) (c : Cache) (p q : String) :
    resolve m (get_track_info m c p).2 q = resolve m c q := by
  unfold resolve get_track_info
  cases hl : lookupCache c p with
  | some i => rfl
  | none =>
    cases he : extractInfo m p with
    | ok info =>
      simp only
      rw [lookupCache_append]
      cases hq : lookupCache c q with
      | some j => simp
      | none =>
        by_cases hpq : q = p
        · subst hpq
          rw [hl] at hq
          simp [he]
        · simp only [hpq, if_false]
          cases extractInfo m q <;> simp
    | error e =>
      simp only
      rw [lookupCache_append]
      cases hq : lookupCache c q with
      | some j => simp
      | none =>
        by_cases hpq : q = p
        · subst hpq
          rw [hl] at hq
          simp [he]
        · simp only [hpq, if_false]
          cases extractInfo m q <;> simp

/-- The decorate step computes, for each element in order, the key its
(cached or freshly extracted) metadata yields in the starting cache. -/
theorem computeKeys_fst (m : Mutagen) (k : SortKey) :
    ∀ (l : List String) (c : Cache),
      (computeKeys m k c l).1 = l.map (fun p => (p, keyFor k (resolve m c p)))
  | [], _ => rfl
  | p :: rest, c => by
    simp only [computeKeys, List.map_cons, List.cons.injEq]
    refine ⟨rfl, ?_⟩
    rw [computeKeys_fst m k rest (get_track_info m c p).2]
    exact List.map_congr_left (fun q _ => by rw [resolve_get_track_info])

/-- The decorate step only memoizes: it changes no lookup's result. -/
theorem computeKeys_resolve (m : Mutagen) (k : SortKey) :
    ∀ (l : List String) (c : Cache) (q : String),
      resolve m (computeKeys m k c l).2 q = resolve m c q
  | [], _, _ => rfl
  | p :: rest, c, q => by
    simp only [computeKeys]
    rw [computeKeys_resolve m k rest (get_track_info m c p).2 q,
      resolve_get_track_info]

/-! ## Properties of sorting -/

theorem decorated_eq (m : Mutagen) (s : State) :
    decorated m s = s.playlist.map (fun p => (p, sortKeyOf m s p)) := by
  unfold decorated sortKeyOf
  exact computeKeys_fst m s.sort_by s.playlist s.track_metadata

theorem sortedPlaylist_perm (m : Mutagen) (s : State) :
    (sortedPlaylist m s).Perm s.playlist := by
  unfold sortedPlaylist
  rw [decorated_eq]
  refine ((List.perm_insertionSort pairLe _).map _).trans (List.Perm.of_eq ?_)
  rw [List.map_map,
    show ((fun x : String × Key => x.1) ∘ fun p => (p, sortKeyOf m s p)) = id from rfl,
    List.map_id]

theorem sortedPlaylist_length (m : Mutagen) (s : State) :
    (sortedPlaylist m s).length = s.playlist.length :=
  (sortedPlaylist_perm m s).length_eq

theorem mem_sortedPlaylist (m : Mutagen) (s : State) {p : String} :
    p ∈ sortedPlaylist m s ↔ p ∈ s.playlist :=
  (sortedPlaylist_perm m s).mem_iff

/-- Every entry of the sorted decorated list carries the key of its path. -/
theorem snd_of_mem_sorted_decorated (m : Mutagen) (s : State) {x : String × Key}
    (hx : x ∈ List.insertionSort pairLe (decorated m s)) :
    x.2 = sortKeyOf m s x.1 := by
  rw [List.mem_insertionSort, decorated_eq] at hx
  obtain ⟨p, hp, rfl⟩ := List.mem_map.mp hx
  rfl

theorem sort_playlist_of_empty (m : Mutagen) (s : State) (h : s.playlist = []) :
    sort_playlist m s = s := by
  unfold sort_playlist
  rw [if_pos h]

theorem sort_playlist_playlist (m : Mutagen) (s : State) (h : s.playlist ≠ []) :
    (sort_playlist m s).playlist = sortedPlaylist m s := by
  unfold sort_playlist
  rw [if_neg h]

theorem sort_playlist_cache (m : Mutagen) (s : State) (h : s.playlist ≠ []) :
    (sort_playlist m s).track_metadata =
      (computeKeys m s.sort_by s.track_metadata s.playlist).2 := by
  unfold sort_playlist
  rw [if_neg h]

theorem sort_playlist_index (m : Mutagen) (s : State) (h : s.playlist ≠ []) :
    (sort_playlist m s).current_track_index =
      remapIndex s.current_track_index s.playlist (sortedPlaylist m s) := by
  unfold sort_playlist
  rw [if_neg h]

theorem sort_playlist_sort_by (m : Mutagen) (s : State) :
    (sort_playlist m s).sort_by = s.sort_by := by
  unfold sort_playlist
  split <;> rfl

theorem sort_playlist_perm (m : Mutagen) (s : State) :
    ((sort_playlist m s).playlist).Perm s.playlist := by
  by_cases h : s.playlist = []
  · rw [sort_playlist_of_empty m s h]
  · rw [sort_playlist_playlist m s h]
    exact sortedPlaylist_perm m s

/-! ## Properties of the index remap -/

theorem listGetI_eq_get {l : List String} {i : Int} (h0 : 0 ≤ i)
    (hl : i < l.length) :
    listGetI l i = l.get ⟨i.toNat, by omega⟩ := by
  unfold listGetI
  have hn : i.toNat < l.length := by omega
  rw [List.getD_eq_getElem?_getD, List.getElem?_eq_getElem hn]
  rfl

theorem listGetI_mem {l : List String} {i : Int} (h0 : 0 ≤ i)
    (hl : i < l.length) : listGetI l i ∈ l := by
  rw [listGetI_eq_get h0 hl]
  exact l.get_mem _ _

theorem remapIndex_of_out {oldIdx : Int} (ol nl : List String)
    (h : ¬(0 ≤ oldIdx ∧ oldIdx < (ol.length : Int))) :
    remapIndex oldIdx ol nl = oldIdx := by
  unfold remapIndex
  rw [if_neg h]

theorem remapIndex_of_empty_path {oldIdx : Int} (ol nl : List String)
    (h : 0 ≤ oldIdx ∧ oldIdx < (ol.length : Int))
    (hp : listGetI ol oldIdx = "") :
    remapIndex oldIdx ol nl = oldIdx := by
  unfold remapIndex
  rw [if_pos h]
  simp [hp]

theorem remapIndex_of_found {oldIdx : Int} (ol nl : List String)
    (h : 0 ≤ oldIdx ∧ oldIdx < (ol.length : Int))
    (hp : listGetI ol oldIdx ≠ "") (hm : listGetI ol oldIdx ∈ nl) :
    remapIndex oldIdx ol nl = ((List.indexOf (listGetI ol oldIdx) nl : Nat) : Int) := by
  unfold remapIndex
  rw [if_pos h]
  simp [hp, hm]

theorem remapIndex_of_absent {oldIdx : Int} (ol nl : List String)
    (h : 0 ≤ oldIdx ∧ oldIdx < (ol.length : Int))
    (hp : listGetI ol oldIdx ≠ "") (hm : listGetI ol oldIdx ∉ nl) :
    remapIndex oldIdx ol nl = -1 := by
  unfold remapIndex
  rw [if_pos h]
  simp [hp, hm]

/-! ## Preservation of the index invariant -/

theorem indexInv_initState : IndexInv initState := Or.inl rfl

theorem indexInv_stop_music {s : State} (h : IndexInv s) :
    IndexInv (stop_music s) := h

theorem indexInv_play_music {s : State} (h : IndexInv s) :
    IndexInv (play_music s) := by
  unfold play_music
  by_cases he : s.playlist = []
  · rw [if_pos he]; exact h
  · rw [if_neg he]
    by_cases hp : s.is_paused = true
    · rw [if_pos hp]; exact h
    · rw [if_neg hp]
      have hlen : (0 : Int) < (s.playlist.length : Int) := by
        exact_mod_cast List.length_pos.mpr he
      by_cases hidx : s.current_track_index = -1
      · right
        refine ⟨?_, ?_⟩ <;> simp [hidx, hlen]
      · rcases h with h1 | h2
        · exact absurd h1 hidx
        · right
          refine ⟨?_, ?_⟩ <;> simp [hidx, h2.1, h2.2]

theorem indexInv_pause_music {s : State} (h : IndexInv s) :
    IndexInv (pause_music s) := by
  unfold pause_music
  split <;> exact h

theorem indexInv_next_track (r : Nat) {s : State} (h : IndexInv s) :
    IndexInv (next_track r s) := by
  unfold next_track
  by_cases he : s.playlist = []
  · rw [if_pos he]; exact h
  · rw [if_neg he]
    have hpos : 0 < s.playlist.length := List.length_pos.mpr he
    have hlen : (0 : Int) < (s.playlist.length : Int) := by exact_mod_cast hpos
    apply indexInv_play_music
    apply indexInv_stop_music
    by_cases hsh : s.shuffle_mode = true
    · rw [if_pos hsh]
      right
      refine ⟨Int.ofNat_nonneg _, ?_⟩
      show ((r % s.playlist.length : Nat) : Int) < (s.playlist.length : Int)
      exact_mod_cast Nat.mod_lt r hpos
    · rw [if_neg hsh]
      right
      exact ⟨Int.emod_nonneg _ (by omega), Int.emod_lt_of_pos _ hlen⟩

theorem indexInv_previous_track {s : State} (h : IndexInv s) :
    IndexInv (previous_track s) := by
  unfold previous_track
  by_cases he : s.playlist = []
  · rw [if_pos he]; exact h
  · rw [if_neg he]
    have hlen : (0 : Int) < (s.playlist.length : Int) := by
      exact_mod_cast List.length_pos.mpr he
    apply indexInv_play_music
    apply indexInv_stop_music
    right
    exact ⟨Int.emod_nonneg _ (by omega), Int.emod_lt_of_pos _ hlen⟩

theorem indexInv_play_selected_track (i : Nat) {s : State}
    (hi : i < s.playlist.length) : IndexInv (play_selected_track i s) := by
  unfold play_selected_track
  apply indexInv_play_music
  apply indexInv_stop_music
  right
  refine ⟨Int.ofNat_nonneg i, ?_⟩
  show (i : Int) < (s.playlist.length : Int)
  exact_mod_cast hi

theorem indexInv_end_seek (pos : Nat) {s : State} (h : IndexInv s) :
    IndexInv (end_seek pos s) := by
  unfold end_seek
  split <;> exact h

theorem indexInv_sort_playlist (m : Mutagen) {s : State} (h : IndexInv s) :
    IndexInv (sort_playlist m s) := by
  by_cases he : s.playlist = []
  · rw [sort_playlist_of_empty m s he]; exact h
  · have hlen := sortedPlaylist_length m s
    unfold IndexInv
    rw [sort_playlist_index m s he, sort_playlist_playlist m s he, hlen]
    by_cases hin : 0 ≤ s.current_track_index ∧
        s.current_track_index < (s.playlist.length : Int)
    · by_cases hp : listGetI s.playlist s.current_track_index = ""
      · rw [remapIndex_of_empty_path _ _ hin hp]
        exact Or.inr hin
      · by_cases hm : listGetI s.playlist s.current_track_index ∈ sortedPlaylist m s
        · rw [remapIndex_of_found _ _ hin hp hm]
          right
          refine ⟨Int.ofNat_nonneg _, ?_⟩
          have hbound := List.indexOf_lt_length.mpr hm
          rw [hlen] at hbound
          exact_mod_cast hbound
        · rw [remapIndex_of_absent _ _ hin hp hm]
          exact Or.inl rfl
    · rw [remapIndex_of_out _ _ hin]
      rcases h with h1 | h2
      · exact Or.inl h1
      · exact absurd h2 hin

/-- The scan loop only appends to the playlist; all other fields are
untouched. -/
theorem scanLoop_shape :
    ∀ (found : List (String × String)) (s : State) (n : Nat),
      ∃ ext : List String,
        (scanLoop s n found).1 = { s with playlist := s.playlist ++ ext }
  | [], s, n => ⟨[], by simp [scanLoop]⟩
  | rf :: rest, s, n => by
    unfold scanLoop
    by_cases ha : isAudioFile rf.2 = true
    · rw [if_pos ha]
      by_cases hm : joinPath rf.1 rf.2 ∈ s.playlist
      · simp only [hm, if_true]
        exact scanLoop_shape rest s n
      · simp only [hm, if_false]
        obtain ⟨ext, hext⟩ := scanLoop_shape rest
          { s with playlist := s.playlist ++ [joinPath rf.1 rf.2] } (n + 1)
        exact ⟨[joinPath rf.1 rf.2] ++ ext, by rw [hext]; simp⟩
    · rw [if_neg ha]
      exact scanLoop_shape rest s n

theorem indexInv_extend {s : State} (ext : List String) (h : IndexInv s) :
    IndexInv { s with playlist := s.playlist ++ ext } := by
  rcases h with h1 | h2
  · exact Or.inl h1
  · right
    refine ⟨h2.1, lt_of_lt_of_le h2.2 ?_⟩
    simp only [List.length_append]
    exact_mod_cast Nat.le_add_right _ _

theorem indexInv_scan_directory (m : Mutagen) (found : List (String × String))
    {s : State} (h : IndexInv s) : IndexInv (scan_directory m found s).1 := by
  unfold scan_directory
  obtain ⟨ext, hext⟩ := scanLoop_shape found s 0
  by_cases hc : (scanLoop s 0 found).1.playlist = []
  · simp only [hc, if_true]
    rw [hext]
    exact indexInv_extend ext h
  · simp only [hc, if_false]
    apply indexInv_sort_playlist
    rw [hext]
    exact indexInv_extend ext h

/-! ## Field bookkeeping for the navigation methods -/

theorem play_music_playlist (s : State) : (play_music s).playlist = s.playlist := by
  unfold play_music
  split
  · rfl
  · split <;> rfl

theorem play_music_shuffle (s : State) :
    (play_music s).shuffle_mode = s.shuffle_mode := by
  unfold play_music
  split
  · rfl
  · split <;> rfl

/-- When a non-sentinel index is already selected and the session is not
paused, `play_music` plays that track and leaves the index unchanged. -/
theorem play_music_index_of_set {s : State} (hne : s.playlist ≠ [])
    (hp : s.is_paused = false) (hidx : s.current_track_index ≠ -1) :
    (play_music s).current_track_index = s.current_track_index := by
  unfold play_music
  rw [if_neg hne, if_neg (by simp [hp]), if_neg hidx]

theorem next_track_playlist (r : Nat) (s : State) :
    (next_track r s).playlist = s.playlist := by
  unfold next_track
  split
  · rfl
  · rw [play_music_playlist]
    rfl

theorem next_track_shuffle (r : Nat) (s : State) :
    (next_track r s).shuffle_mode = s.shuffle_mode := by
  unfold next_track
  split
  · rfl
  · rw [play_music_shuffle]
    rfl

/-- The index update of `next_track` without shuffle: step `+1 mod length`. -/
theorem next_track_index (r : Nat) (s : State) (hne : s.playlist ≠ [])
    (hsh : s.shuffle_mode = false) :
    (next_track r s).current_track_index =
      (s.current_track_index + 1) % (s.playlist.length : Int) := by
  have hlen : (0 : Int) < (s.playlist.length : Int) := by
    exact_mod_cast List.length_pos.mpr hne
  unfold next_track
  rw [if_neg hne, if_neg (by simp [hsh])]
  show (play_music (stop_music
    { s with current_track_index :=
        (s.current_track_index + 1) % (s.playlist.length : Int) })).current_track_index = _
  have hv : (s.current_track_index + 1) % (s.playlist.length : Int) ≠ -1 := by
    have := Int.emod_nonneg (s.current_track_index + 1)
      (show (s.playlist.length : Int) ≠ 0 by omega)
    omega
  rw [play_music_index_of_set
    (s := stop_music { s with current_track_index :=
      (s.current_track_index + 1) % (s.playlist.length : Int) }) hne rfl hv]
  rfl

/-- The index update of `previous_track`: step `-1 mod length`. -/
theorem previous_track_index (s : State) (hne : s.playlist ≠ []) :
    (previous_track s).current_track_index =
      (s.current_track_index - 1) % (s.playlist.length : Int) := by
  have hlen : (0 : Int) < (s.playlist.length : Int) := by
    exact_mod_cast List.length_pos.mpr hne
  unfold previous_track
  rw [if_neg hne]
  show (play_music (stop_music
    { s with current_track_index :=
        (s.current_track_index - 1) % (s.playlist.length : Int) })).current_track_index = _
  have hv : (s.current_track_index - 1) % (s.playlist.length : Int) ≠ -1 := by
    have := Int.emod_nonneg (s.current_track_index - 1)
      (show (s.playlist.length : Int) ≠ 0 by omega)
    omega
  rw [play_music_index_of_set
    (s := stop_music { s with current_track_index :=
      (s.current_track_index - 1) % (s.playlist.length : Int) }) hne rfl hv]
  rfl

/-- `k` non-shuffle `next_track` calls step the index by `+k mod length`
and leave the playlist and the shuffle flag alone. -/
theorem next_track_iterate (r : Nat) (s : State) (hne : s.playlist ≠ [])
    (hsh : s.shuffle_mode = false) (h0 : 0 ≤ s.current_track_index)
    (h1 : s.current_track_index < (s.playlist.length : Int)) :
    ∀ k : Nat,
      ((next_track r)^[k] s).current_track_index =
          (s.current_track_index + k) % (s.playlist.length : Int) ∧
        ((next_track r)^[k] s).playlist = s.playlist ∧
        ((next_track r)^[k] s).shuffle_mode = false
  | 0 => by
    refine ⟨?_, rfl, hsh⟩
    simp only [Function.iterate_zero, id_eq, Nat.cast_zero, Int.add_zero]
    exact (Int.emod_eq_of_lt h0 h1).symm
  | k + 1 => by
    obtain ⟨ih1, ih2, ih3⟩ := next_track_iterate r s hne hsh h0 h1 k
    rw [Function.iterate_succ_apply']
    have hne2 : ((next_track r)^[k] s).playlist ≠ [] := by rw [ih2]; exact hne
    refine ⟨?_, ?_, ?_⟩
    · rw [next_track_index r _ hne2 ih3, ih1, ih2, Int.emod_add_emod]
      push_cast
      ring_nf
    · rw [next_track_playlist, ih2]
    · rw [next_track_shuffle, ih3]

/-! ## Properties of scanning -/

theorem audioPaths_cons_of_audio {rf : String × String}
    (rest : List (String × String)) (ha : isAudioFile rf.2 = true) :
    audioPaths (rf :: rest) = joinPath rf.1 rf.2 :: audioPaths rest := by
  simp [audioPaths, List.filter_cons, ha]

theorem audioPaths_cons_of_other {rf : String × String}
    (rest : List (String × String)) (ha : ¬isAudioFile rf.2 = true) :
    audioPaths (rf :: rest) = audioPaths rest := by
  simp [audioPaths, List.filter_cons, ha]

theorem scanLoop_mem :
    ∀ (found : List (String × String)) (s : State) (n : Nat) (p : String),
      p ∈ (scanLoop s n found).1.playlist ↔
        p ∈ s.playlist ∨ p ∈ audioPaths found
  | [], s, n, p => by simp [scanLoop, audioPaths]
  | rf :: rest, s, n, p => by
    unfold scanLoop
    by_cases ha : isAudioFile rf.2 = true
    · rw [if_pos ha, audioPaths_cons_of_audio rest ha]
      by_cases hm : joinPath rf.1 rf.2 ∈ s.playlist
      · rw [if_pos hm, scanLoop_mem rest s n p, List.mem_cons]
        constructor
        · rintro (h | h)
          · exact Or.inl h
          · exact Or.inr (Or.inr h)
        · rintro (h | h | h)
          · exact Or.inl h
          · exact Or.inl (h ▸ hm)
          · exact Or.inr h
      · rw [if_neg hm, scanLoop_mem rest _ (n + 1) p, List.mem_cons]
        show p ∈ s.playlist ++ [joinPath rf.1 rf.2] ∨ _ ↔ _
        simp only [List.mem_append, List.mem_singleton]
        tauto
    · rw [if_neg ha, audioPaths_cons_of_other rest ha]
      exact scanLoop_mem rest s n p

theorem scanLoop_count :
    ∀ (found : List (String × String)) (s : State) (n : Nat),
      (scanLoop s n found).1.playlist.length + n =
        s.playlist.length + (scanLoop s n found).2
  | [], s, n => rfl
  | rf :: rest, s, n => by
    unfold scanLoop
    by_cases ha : isAudioFile rf.2 = true
    · rw [if_pos ha]
      by_cases hm : joinPath rf.1 rf.2 ∈ s.playlist
      · rw [if_pos hm]
        exact scanLoop_count rest s n
      · rw [if_neg hm]
        have ih := scanLoop_count rest
          { s with playlist := s.playlist ++ [joinPath rf.1 rf.2] } (n + 1)
        simp only [List.length_append, List.length_singleton] at ih
        omega
    · rw [if_neg ha]
      exact scanLoop_count rest s n

theorem scanLoop_nodup :
    ∀ (found : List (String × String)) (s : State) (n : Nat),
      s.playlist.Nodup → (scanLoop s n found).1.playlist.Nodup
  | [], s, n, h => h
  | rf :: rest, s, n, h => by
    unfold scanLoop
    by_cases ha : isAudioFile rf.2 = true
    · rw [if_pos ha]
      by_cases hm : joinPath rf.1 rf.2 ∈ s.playlist
      · rw [if_pos hm]
        exact scanLoop_nodup rest s n h
      · rw [if_neg hm]
        refine scanLoop_nodup rest _ (n + 1) ?_
        show (s.playlist ++ [joinPath rf.1 rf.2]).Nodup
        exact (List.nodup_cons.mpr ⟨hm, h⟩).perm
          (List.perm_append_singleton _ _).symm
    · rw [if_neg ha]
      exact scanLoop_nodup rest s n h

theorem scanLoop_of_all_mem :
    ∀ (found : List (String × String)) (s : State) (n : Nat),
      (∀ p ∈ audioPaths found, p ∈ s.playlist) → scanLoop s n found = (s, n)
  | [], s, n, _ => rfl
  | rf :: rest, s, n, h => by
    unfold scanLoop
    by_cases ha : isAudioFile rf.2 = true
    · rw [if_pos ha]
      have hm : joinPath rf.1 rf.2 ∈ s.playlist := by
        apply h
        rw [audioPaths_cons_of_audio rest ha]
        exact List.mem_cons_self _ _
      rw [if_pos hm]
      refine scanLoop_of_all_mem rest s n (fun p hp => h p ?_)
      rw [audioPaths_cons_of_audio rest ha]
      exact List.mem_cons_of_mem _ hp
    · rw [if_neg ha]
      refine scanLoop_of_all_mem rest s n (fun p hp => h p ?_)
      rwa [audioPaths_cons_of_other rest ha]

theorem scan_directory_mem (m : Mutagen) (found : List (String × String))
    (s : State) (p : String) :
    p ∈ (scan_directory m found s).1.playlist ↔
      p ∈ s.playlist ∨ p ∈ audioPaths found := by
  unfold scan_directory
  by_cases hc : (scanLoop s 0 found).1.playlist = []
  · rw [if_pos hc]
    exact scanLoop_mem found s 0 p
  · rw [if_neg hc]
    show p ∈ (sort_playlist m (scanLoop s 0 found).1).playlist ↔ _
    rw [(sort_playlist_perm m _).mem_iff]
    exact scanLoop_mem found s 0 p

theorem scan_directory_nodup (m : Mutagen) (found : List (String × String))
    {s : State} (h : s.playlist.Nodup) :
    (scan_directory m found s).1.playlist.Nodup := by
  unfold scan_directory
  by_cases hc : (scanLoop s 0 found).1.playlist = []
  · rw [if_pos hc]
    exact scanLoop_nodup found s 0 h
  · rw [if_neg hc]
    exact ((sort_playlist_perm m _).symm).nodup (scanLoop_nodup found s 0 h)

theorem scan_directory_count (m : Mutagen) (found : List (String × String))
    (s : State) :
    (scan_directory m found s).1.playlist.length =
      s.playlist.length + (scan_directory m found s).2 := by
  unfold scan_directory
  have h := scanLoop_count found s 0
  by_cases hc : (scanLoop s 0 found).1.playlist = []
  · rw [if_pos hc]
    omega
  · rw [if_neg hc]
    show (sort_playlist m (scanLoop s 0 found).1).playlist.length =
      s.playlist.length + (scanLoop s 0 found).2
    have hp := (sort_playlist_perm m (scanLoop s 0 found).1).length_eq
    omega

theorem scan_directory_twice (m : Mutagen) (found : List (String × String))
    (s : State) :
    (scan_directory m found (scan_directory m found s).1).2 = 0 := by
  have hall : ∀ p ∈ audioPaths found, p ∈ (scan_directory m found s).1.playlist :=
    fun p hp => (scan_directory_mem m found s p).mpr (Or.inr hp)
  generalize hgen : (scan_directory m found s).1 = s1 at hall
  unfold scan_directory
  rw [scanLoop_of_all_mem found s1 0 hall]
  split <;> rfl

/-! ## Further sorting lemmas: stability, idempotence, index remapping -/

theorem getD_indexOf {l : List String} {a : String} (h : a ∈ l) :
    l.getD (List.indexOf a l) "" = a := by
  have hb := List.indexOf_lt_length.mpr h
  rw [List.getD_eq_getElem?_getD, List.getElem?_eq_getElem hb]
  have h2 := List.indexOf_get (a := a) (l := l) hb
  show l[List.indexOf a l] = a
  exact h2

/-- Stability of `sort_playlist`, at the level of the produced order:
selecting the paths of any one key value commutes with the sort. -/
theorem sortedPlaylist_filter (m : Mutagen) (s : State) (q : Key) :
    (sortedPlaylist m s).filter (fun p => decide (sortKeyOf m s p = q)) =
      s.playlist.filter (fun p => decide (sortKeyOf m s p = q)) := by
  unfold sortedPlaylist
  rw [List.filter_map]
  have hc1 : ∀ x ∈ List.insertionSort pairLe (decorated m s),
      ((fun p => decide (sortKeyOf m s p = q)) ∘ Prod.fst) x =
        (fun x : String × Key => decide (x.2 = q)) x := by
    intro x hx
    have h2 := snd_of_mem_sorted_decorated m s hx
    simp only [Function.comp_apply]
    rw [h2]
  rw [List.filter_congr hc1]
  rw [filter_insertionSort_of_const pairLe (fun x => decide (x.2 = q))
    (decorated m s) (fun a b ha hb => by
      show keyLe a.2 b.2 = true
      rw [of_decide_eq_true ha, of_decide_eq_true hb]
      exact keyLe_refl q)]
  rw [decorated_eq]
  have hc2 : ∀ x ∈ s.playlist.map (fun p => (p, sortKeyOf m s p)),
      (fun x : String × Key => decide (x.2 = q)) x =
        ((fun p => decide (sortKeyOf m s p = q)) ∘ Prod.fst) x := by
    intro x hx
    obtain ⟨p, _, rfl⟩ := List.mem_map.mp hx
    rfl
  rw [List.filter_congr hc2, List.filter_map, List.map_map,
    show (Prod.fst ∘ fun p => (p, sortKeyOf m s p)) = id from rfl, List.map_id,
    show ((fun p => decide (sortKeyOf m s p = q)) ∘ Prod.fst) ∘
        (fun p => (p, sortKeyOf m s p)) =
      (fun p => decide (sortKeyOf m s p = q)) from rfl]

/-- Sorting an already-sorted playlist leaves the order unchanged: the
cache was filled by the first sort, so every key resolves identically, and
the decorated list is already pairwise ordered. -/
theorem sortedPlaylist_idem (m : Mutagen) (s : State) (hne : s.playlist ≠ []) :
    sortedPlaylist m (sort_playlist m s) = (sort_playlist m s).playlist := by
  have hkey : ∀ p, sortKeyOf m (sort_playlist m s) p = sortKeyOf m s p := by
    intro p
    unfold sortKeyOf
    rw [sort_playlist_sort_by, sort_playlist_cache m s hne, computeKeys_resolve]
  have hdec : decorated m (sort_playlist m s) =
      List.insertionSort pairLe (decorated m s) := by
    rw [decorated_eq, sort_playlist_playlist m s hne]
    unfold sortedPlaylist
    rw [List.map_map]
    refine (List.map_congr_left ?_).trans (List.map_id _)
    intro x hx
    show (x.1, sortKeyOf m (sort_playlist m s) x.1) = x
    rw [hkey, ← snd_of_mem_sorted_decorated m s hx]
  have hsorted : (List.insertionSort pairLe (decorated m s)).Pairwise pairLe :=
    List.sorted_insertionSort pairLe (decorated m s)
  unfold sortedPlaylist
  rw [hdec, List.Sorted.insertionSort_eq hsorted, sort_playlist_playlist m s hne]
  rfl

/-! ## The specified claims -/

/-- C1: For every sequence of playlist operations (scan, sort, clear,
next, previous, play, select-track — and the remaining UI operations)
starting from the initial state, the current track index is either the
sentinel (`-1`) or satisfies `0 ≤ index < length` of the playlist. -/
theorem spec_C1_index_invariant (m : Mutagen) (s : State)
    (h : Reachable m s) : IndexInv s := by
  induction h with
  | init => exact indexInv_initState
  | scan found _ ih => exact indexInv_scan_directory m found ih
  | sort k _ ih => exact indexInv_sort_playlist m ih
  | clear _ _ => exact Or.inl rfl
  | next r _ ih => exact indexInv_next_track r ih
  | prev _ ih => exact indexInv_previous_track ih
  | play _ ih => exact indexInv_play_music ih
  | pause _ ih => exact indexInv_pause_music ih
  | stop _ ih => exact indexInv_stop_music ih
  | shuffle _ ih => exact ih
  | select i hi _ _ => exact indexInv_play_selected_track i hi
  | seekStart _ ih => exact ih
  | seekEnd pos _ ih => exact indexInv_end_seek pos ih

theorem spec_C1_witness :
    IndexInv (next_track 0 (scan_directory mutagenFails walkD initState).1) :=
  spec_C1_index_invariant mutagenFails _
    (Reachable.next 0 (Reachable.scan walkD Reachable.init))

/-- C2: For every non-empty playlist with shuffle off and a valid current
index `i`, one call to `next()` sets the current index to
`(i + 1) mod length`, and `length` successive calls to `next()` return the
current index to its original value `i`. -/
theorem spec_C2_next_cycles (r : Nat) (s : State) (hne : s.playlist ≠ [])
    (hsh : s.shuffle_mode = false) (h0 : 0 ≤ s.current_track_index)
    (h1 : s.current_track_index < (s.playlist.length : Int)) :
    (next_track r s).current_track_index =
        (s.current_track_index + 1) % (s.playlist.length : Int) ∧
      ((next_track r)^[s.playlist.length] s).current_track_index =
        s.current_track_index := by
  refine ⟨next_track_index r s hne hsh, ?_⟩
  have h := (next_track_iterate r s hne hsh h0 h1 s.playlist.length).1
  rw [h]
  have h2 : (s.current_track_index + (s.playlist.length : Int)) %
      (s.playlist.length : Int) = s.current_track_index % (s.playlist.length : Int) := by
    have := Int.add_mul_emod_self_left s.current_track_index
      (s.playlist.length : Int) 1
    simp only [Int.mul_one] at this
    exact this
  rw [h2, Int.emod_eq_of_lt h0 h1]

theorem spec_C2_witness :
    (next_track 0 st3).current_track_index =
        (st3.current_track_index + 1) % (st3.playlist.length : Int) ∧
      ((next_track 0)^[st3.playlist.length] st3).current_track_index =
        st3.current_track_index :=
  spec_C2_next_cycles 0 st3 (by decide) (by decide) (by decide) (by decide)

/-- C3: For every non-empty playlist with shuffle off and a valid current
index `i`, calling `next()` and then `previous()` restores the current
index to `i`; `previous()` computes `(current - 1) mod length`, wrapping
from index 0 to `length - 1`. -/
theorem spec_C3_previous_inverts_next (r : Nat) (s : State)
    (hne : s.playlist ≠ []) (hsh : s.shuffle_mode = false)
    (h0 : 0 ≤ s.current_track_index)
    (h1 : s.current_track_index < (s.playlist.length : Int)) :
    (previous_track (next_track r s)).current_track_index =
        s.current_track_index ∧
      (previous_track s).current_track_index =
        (s.current_track_index - 1) % (s.playlist.length : Int) ∧
      (s.current_track_index = 0 →
        (previous_track s).current_track_index = (s.playlist.length : Int) - 1) := by
  have hlen : (0 : Int) < (s.playlist.length : Int) := by
    exact_mod_cast List.length_pos.mpr hne
  have hprev := previous_track_index s hne
  refine ⟨?_, hprev, ?_⟩
  · have hne2 : (next_track r s).playlist ≠ [] := by
      rw [next_track_playlist]; exact hne
    rw [previous_track_index _ hne2, next_track_index r s hne hsh,
      next_track_playlist]
    have step1 : ((s.current_track_index + 1) % (s.playlist.length : Int) - 1) %
        (s.playlist.length : Int) =
        ((s.current_track_index + 1) - 1) % (s.playlist.length : Int) := by
      rw [Int.sub_emod ((s.current_track_index + 1) % (s.playlist.length : Int)) 1,
        Int.emod_emod_of_dvd _ dvd_rfl, ← Int.sub_emod]
    rw [step1, Int.add_sub_cancel, Int.emod_eq_of_lt h0 h1]
  · intro hz
    rw [hprev, hz]
    have step2 : ((0 : Int) - 1) % (s.playlist.length : Int) =
        ((s.playlist.length : Int) - 1) % (s.playlist.length : Int) := by
      have := Int.add_mul_emod_self_left ((0 : Int) - 1) (s.playlist.length : Int) 1
      simp only [Int.mul_one] at this
      rw [← this]
      ring_nf
    rw [step2, Int.emod_eq_of_lt (by omega) (by omega)]

theorem spec_C3_witness :
    (previous_track (next_track 0 st3)).current_track_index =
        st3.current_track_index ∧
      (previous_track st3).current_track_index =
        (st3.current_track_index - 1) % (st3.playlist.length : Int) ∧
      (st3.current_track_index = 0 →
        (previous_track st3).current_track_index = (st3.playlist.length : Int) - 1) :=
  spec_C3_previous_inverts_next 0 st3 (by decide) (by decide) (by decide) (by decide)

/-- C10: For every non-empty playlist of length `n`, calling `previous()`
while the current index is the sentinel (`-1`) sets the current index to
`(n - 2) mod n` — the second-to-last track for `n ≥ 2`, index 0 for
`n = 1` — rather than the last track that wrapping from index 0 would
give. -/
theorem spec_C10_previous_from_sentinel (s : State) (hne : s.playlist ≠ [])
    (hidx : s.current_track_index = -1) :
    (previous_track s).current_track_index =
        ((s.playlist.length : Int) - 2) % (s.playlist.length : Int) ∧
      (2 ≤ s.playlist.length →
        (previous_track s).current_track_index = (s.playlist.length : Int) - 2) ∧
      (s.playlist.length = 1 → (previous_track s).current_track_index = 0) ∧
      (2 ≤ s.playlist.length →
        (previous_track s).current_track_index ≠ (s.playlist.length : Int) - 1) := by
  have hlen : (0 : Int) < (s.playlist.length : Int) := by
    exact_mod_cast List.length_pos.mpr hne
  have hprev := previous_track_index s hne
  rw [hidx] at hprev
  have hmain : (previous_track s).current_track_index =
      ((s.playlist.length : Int) - 2) % (s.playlist.length : Int) := by
    rw [hprev]
    have := Int.add_mul_emod_self_left ((-1 : Int) - 1) (s.playlist.length : Int) 1
    simp only [Int.mul_one] at this
    rw [← this]
    ring_nf
  refine ⟨hmain, ?_, ?_, ?_⟩
  · intro h2
    rw [hmain, Int.emod_eq_of_lt (by omega) (by omega)]
  · intro h1
    rw [hmain, h1]
    decide
  · intro h2
    rw [hmain, Int.emod_eq_of_lt (by omega) (by omega)]
    omega

theorem spec_C10_witness :
    (previous_track st3none).current_track_index =
        ((st3none.playlist.length : Int) - 2) % (st3none.playlist.length : Int) ∧
      (2 ≤ st3none.playlist.length →
        (previous_track st3none).current_track_index =
          (st3none.playlist.length : Int) - 2) ∧
      (st3none.playlist.length = 1 →
        (previous_track st3none).current_track_index = 0) ∧
      (2 ≤ st3none.playlist.length →
        (previous_track st3none).current_track_index ≠
          (st3none.playlist.length : Int) - 1) :=
  spec_C10_previous_from_sentinel st3none (by decide) (by decide)

/-- C7: For every state, after `clear()` the playlist sequence is empty,
the metadata cache is empty, the current index is the sentinel, and
playback is stopped (paused flag false). -/
theorem spec_C7_clear_resets (s : State) :
    (clear_playlist s).playlist = [] ∧
      (clear_playlist s).track_metadata = [] ∧
      (clear_playlist s).current_track_index = -1 ∧
      (clear_playlist s).is_paused = false ∧
      (clear_playlist s).engine.playing = false :=
  ⟨rfl, rfl, rfl, rfl, rfl⟩

/-- C8: For every input path, including nonexistent files and files with
no tags, the metadata lookup never raises to the caller (it is a total
function into `TrackInfo`) and on any extraction failure — an exception
(`.error`) or no usable tags (`.ok none`) — returns the fallback triple
{title = filename stem, artist = "Unknown Artist", album = "Unknown
Album"}; the result is cached per path, so a repeated lookup returns the
same triple and leaves the cache unchanged. -/
theorem spec_C8_metadata_fallback_and_cache (m : Mutagen) (c : Cache)
    (path : String) :
    (lookupCache c path = none → extractInfo m path = .error () →
        (get_track_info m c path).1 =
          { title := pyStem path, artist := "Unknown Artist",
            album := "Unknown Album" }) ∧
      (lookupCache c path = none → m path = .ok none →
        (get_track_info m c path).1 =
          { title := pyStem path, artist := "Unknown Artist",
            album := "Unknown Album" }) ∧
      (get_track_info m (get_track_info m c path).2 path =
        get_track_info m c path) := by
  refine ⟨?_, ?_, ?_⟩
  · intro hl he
    unfold get_track_info
    rw [hl, he]
    rfl
  · intro hl he
    unfold get_track_info
    rw [hl]
    have hex : extractInfo m path = .ok (fallbackInfo path) := by
      unfold extractInfo
      rw [he]
      rfl
    rw [hex]
    rfl
  · unfold get_track_info
    cases hl : lookupCache c path with
    | some info => rw [hl]
    | none =>
      cases he : extractInfo m path with
      | ok info =>
        simp only
        rw [lookupCache_append, hl]
        simp
      | error e =>
        simp only
        rw [lookupCache_append, hl]
        simp

theorem spec_C8_witness :
    (lookupCache [] "music/son.g.mp3" = none →
        extractInfo mutagenFails "music/son.g.mp3" = .error () →
        (get_track_info mutagenFails [] "music/son.g.mp3").1 =
          { title := pyStem "music/son.g.mp3", artist := "Unknown Artist",
            album := "Unknown Album" }) ∧
      ((get_track_info mutagenFails [] "music/son.g.mp3").1 =
        { title := "son.g", artist := "Unknown Artist",
          album := "Unknown Album" }) ∧
      (get_track_info mutagenFails
          (get_track_info mutagenFails [] "music/son.g.mp3").2 "music/son.g.mp3" =
        get_track_info mutagenFails [] "music/son.g.mp3") :=
  ⟨(spec_C8_metadata_fallback_and_cache mutagenFails [] "music/son.g.mp3").1,
    ((spec_C8_metadata_fallback_and_cache mutagenFails [] "music/son.g.mp3").1
      rfl rfl).trans (by decide),
    (spec_C8_metadata_fallback_and_cache mutagenFails [] "music/son.g.mp3").2.2⟩

/-- C9: For every non-empty playlist with a valid current index,
`seek(position)` sets the seek offset to `position`, reloads the current
track and starts playback at `position` seconds, and preserves the paused
state: if the session was paused before the seek the engine is paused
again immediately after, and the paused flag is unchanged. -/
theorem spec_C9_seek_preserves_pause (pos : Nat) (s : State)
    (hne : s.playlist ≠ []) (h0 : 0 ≤ s.current_track_index)
    (_h1 : s.current_track_index < (s.playlist.length : Int)) :
    (end_seek pos s).seek_offset = pos ∧
      (end_seek pos s).engine.loaded =
        some (listGetI s.playlist s.current_track_index) ∧
      (end_seek pos s).engine.playing = true ∧
      (end_seek pos s).engine.startPos = pos ∧
      (end_seek pos s).is_paused = s.is_paused ∧
      (end_seek pos s).engine.paused = s.is_paused := by
  have hg : ¬(s.playlist = [] ∨ s.current_track_index = -1) := by
    rintro (h | h)
    · exact hne h
    · omega
  by_cases hp : s.is_paused = true
  · simp [end_seek, hg, hp, enginePause, enginePlay, engineLoad, engineStop]
  · simp [end_seek, hg, hp, enginePause, enginePlay, engineLoad, engineStop]

theorem spec_C9_witness :
    (end_seek 30 stPaused).seek_offset = 30 ∧
      (end_seek 30 stPaused).engine.loaded =
        some (listGetI stPaused.playlist stPaused.current_track_index) ∧
      (end_seek 30 stPaused).engine.playing = true ∧
      (end_seek 30 stPaused).engine.startPos = 30 ∧
      (end_seek 30 stPaused).is_paused = stPaused.is_paused ∧
      (end_seek 30 stPaused).engine.paused = stPaused.is_paused :=
  spec_C9_seek_preserves_pause 30 stPaused (by decide) (by decide) (by decide)

/-- C4 as amended: sorting preserves the current-track identity provided
the current track's path is a non-empty string — the code's truthiness
check `if current_track:` skips the index remap for the empty-string path.
A sentinel index stays sentinel, and a non-empty in-range path is
re-located (it is always found, the sort being a permutation; were it
absent, `remapIndex` would yield the sentinel, per the
`except ValueError` branch). -/
theorem spec_C4_sort_preserves_current (m : Mutagen) (s : State) :
    (s.current_track_index = -1 → (sort_playlist m s).current_track_index = -1) ∧
      (∀ i : Nat, s.current_track_index = (i : Int) → i < s.playlist.length →
        s.playlist.getD i "" ≠ "" →
        ∃ j : Nat, (sort_playlist m s).current_track_index = (j : Int) ∧
          j < (sort_playlist m s).playlist.length ∧
          (sort_playlist m s).playlist.getD j "" = s.playlist.getD i "") := by
  constructor
  · intro hidx
    by_cases hne : s.playlist = []
    · rw [sort_playlist_of_empty m s hne, hidx]
    · have hout : ¬(0 ≤ s.current_track_index ∧
          s.current_track_index < (s.playlist.length : Int)) := by
        rw [hidx]; omega
      rw [sort_playlist_index m s hne, remapIndex_of_out _ _ hout]
      exact hidx
  · intro i hidx hlen hnem
    have hne : s.playlist ≠ [] := by
      intro h
      rw [h] at hlen
      exact Nat.not_lt_zero i hlen
    have hin : 0 ≤ s.current_track_index ∧
        s.current_track_index < (s.playlist.length : Int) := by
      constructor
      · rw [hidx]; exact Int.ofNat_nonneg i
      · rw [hidx]; exact_mod_cast hlen
    have hgd : listGetI s.playlist s.current_track_index = s.playlist.getD i "" := by
      rw [hidx]; rfl
    have hp : listGetI s.playlist s.current_track_index ≠ "" := by
      rw [hgd]; exact hnem
    have hmem0 : s.playlist.getD i "" ∈ s.playlist := by
      rw [List.getD_eq_getElem?_getD, List.getElem?_eq_getElem hlen]
      exact List.getElem_mem hlen
    have hmem : listGetI s.playlist s.current_track_index ∈ sortedPlaylist m s := by
      rw [hgd, mem_sortedPlaylist]
      exact hmem0
    refine ⟨List.indexOf (listGetI s.playlist s.current_track_index)
      (sortedPlaylist m s), ?_, ?_, ?_⟩
    · rw [sort_playlist_index m s hne, remapIndex_of_found _ _ hin hp hmem]
    · rw [sort_playlist_playlist m s hne]
      exact List.indexOf_lt_length.mpr hmem
    · rw [sort_playlist_playlist m s hne, ← hgd]
      exact getD_indexOf hmem

theorem spec_C4_witness :
    (sort_playlist mutagenFails st3none).current_track_index = -1 ∧
      ∃ j : Nat,
        (sort_playlist mutagenFails stZebra).current_track_index = (j : Int) ∧
          j < (sort_playlist mutagenFails stZebra).playlist.length ∧
          (sort_playlist mutagenFails stZebra).playlist.getD j "" =
            stZebra.playlist.getD 0 "" :=
  ⟨(spec_C4_sort_preserves_current mutagenFails st3none).1 rfl,
    (spec_C4_sort_preserves_current mutagenFails stZebra).2 0 rfl
      (by decide) (by decide)⟩

/-- C4 as stated is false on the code: in `stEmptyPath` the current track
(index 0) is the empty-string path, which Python's `if current_track:`
treats as falsy, so the index is not remapped; after the Name sort the
index 0 points at `"d/b.mp3"`, not at the original (empty) path, even
though that path is still in the sequence and the index was not the
sentinel. -/
theorem spec_C4_counterexample :
    stEmptyPath.current_track_index = 0 ∧
      listGetI stEmptyPath.playlist stEmptyPath.current_track_index = "" ∧
      ("" : String) ∈ (sort_playlist mutagenFails stEmptyPath).playlist ∧
      (sort_playlist mutagenFails stEmptyPath).current_track_index = 0 ∧
      listGetI (sort_playlist mutagenFails stEmptyPath).playlist
        (sort_playlist mutagenFails stEmptyPath).current_track_index =
        "d/b.mp3" := by
  decide

/-- C5: For every playlist and every sort key (Name, Artist, Album —
whose comparison keys are the lowercased title, (artist, title) and
(album, title) as encoded in `sortKeyOf`), sorting is a permutation of the
sequence, it is stable (filtering the paths of any one key value commutes
with the sort), and sorting twice by the same key yields the same order as
sorting once. -/
theorem spec_C5_sort_stable_idempotent (m : Mutagen) (s : State) :
    ((sort_playlist m s).playlist).Perm s.playlist ∧
      (∀ q : Key, ((sort_playlist m s).playlist).filter
          (fun p => decide (sortKeyOf m s p = q)) =
        s.playlist.filter (fun p => decide (sortKeyOf m s p = q))) ∧
      (sort_playlist m (sort_playlist m s)).playlist =
        (sort_playlist m s).playlist := by
  refine ⟨sort_playlist_perm m s, ?_, ?_⟩
  · intro q
    by_cases hne : s.playlist = []
    · rw [sort_playlist_of_empty m s hne]
    · rw [sort_playlist_playlist m s hne]
      exact sortedPlaylist_filter m s q
  · by_cases hne : s.playlist = []
    · simp only [sort_playlist_of_empty m s hne]
    · have hne2 : (sort_playlist m s).playlist ≠ [] := by
        rw [sort_playlist_playlist m s hne]
        intro h
        have hz : (sortedPlaylist m s).length = 0 := by rw [h]; rfl
        rw [sortedPlaylist_length] at hz
        exact hne (List.length_eq_zero.mp hz)
      rw [sort_playlist_playlist m (sort_playlist m s) hne2,
        sortedPlaylist_idem m s hne]

/-- C6: For every directory walk and every prior playlist contents, scan
appends exactly the matching paths not already present (membership
characterisation plus the count bookkeeping), preserves freedom from
duplicates, and scanning the same directory a second time adds 0 new
entries. -/
theorem spec_C6_scan_never_duplicates (m : Mutagen)
    (found : List (String × String)) (s : State) :
    (s.playlist.Nodup → (scan_directory m found s).1.playlist.Nodup) ∧
      (∀ p, p ∈ (scan_directory m found s).1.playlist ↔
        p ∈ s.playlist ∨ p ∈ audioPaths found) ∧
      ((scan_directory m found s).1.playlist.length =
        s.playlist.length + (scan_directory m found s).2) ∧
      ((scan_directory m found (scan_directory m found s).1).2 = 0) :=
  ⟨fun h => scan_directory_nodup m found h,
    scan_directory_mem m found s,
    scan_directory_count m found s,
    scan_directory_twice m found s⟩

theorem spec_C6_witness :
    (scan_directory mutagenFails walkD initState).1.playlist.Nodup :=
  (spec_C6_scan_never_duplicates mutagenFails walkD initState).1 (by decide)

end MusicPlayer
